import Mathlib

/-
Verification of Clang's structure-field layout randomization (lib/AST/Randstruct.cpp).

The development shallowly embeds the member-randomization core:
`Randstruct::randomize` (bucket builder + shuffler), `shouldRandomize`,
and `randomizeStructureLayout`.  Machine integers are modelled as `Nat`
(all quantities involved are non-negative counters, widths and sizes).
`std::shuffle` is guaranteed by the C++ standard to reorder a range into a
permutation of itself, but the concrete permutation is implementation
defined; it is therefore modelled as a parameter `sp` producing an index
permutation together with an updated generator state, constrained by
`IsShuffle`.  The `std::mt19937 RNG` object is default-constructed in the
source, hence the generator state starts from the fixed default seed.
-/

namespace Randstruct

/-- A data member of the aggregate: exactly the attributes of a `FieldDecl`
that the randomization code consults (`isBitField`, `isZeroLengthBitField`,
`getTypeInfo(F->getType()).Width`, `isIncompleteArrayType`), plus a stable
identity standing for the declaration handle. -/
structure Field where
  ident : Nat
  isBitfield : Bool
  isZeroWidth : Bool
  width : Nat
  isIncompleteArray : Bool
deriving DecidableEq

/-- The CACHE_LINE constant of lib/AST/Randstruct.cpp. -/
def CACHE_LINE : Nat := 64

/-- The branch condition `F->isBitField() && !F->isZeroLengthBitField(Context)`. -/
def runP (f : Field) : Bool := f.isBitfield && !f.isZeroWidth

/-- A bucket: its ordered fields, running `Size`, and whether it is a
`BitfieldRun`. -/
structure Bucket where
  fields : List Field
  size : Nat
  isRun : Bool
deriving DecidableEq

/-- Sealing the current bitfield run into a `BitfieldRun` bucket; every
`addField` on a run passed `FieldSize = 1`, so its `Size` is its length. -/
def sealRun (r : List Field) : Bucket := ⟨r, r.length, true⟩

/-- State of the bucket-building `while` loop of `Randstruct::randomize`:
the working queue `q` (`FieldsOut`), the `Skipped` counter `s`,
`CurrentBucket`, `CurrentBitfieldRun`, and the `Buckets` output vector.
Entries of `bks` are `Option Bucket` because the vector holds owning
pointers and the force-close path pushes `CurrentBucket` unconditionally,
null or not. -/
structure BState where
  q : List Field
  s : Nat
  cur : Option Bucket
  brun : Option (List Field)
  bks : List (Option Bucket)
deriving DecidableEq

/-- Line 153: `if (CurrentBucket) Buckets.push_back(std::move(CurrentBucket));` -/
def pushOptCur (cur : Option Bucket) (bks : List (Option Bucket)) : List (Option Bucket) :=
  match cur with
  | some b => bks ++ [some b]
  | none => bks

/-- Line 158: `if (CurrentBitfieldRun) Buckets.push_back(std::move(CurrentBitfieldRun));` -/
def pushOptRun (r : Option (List Field)) (bks : List (Option Bucket)) : List (Option Bucket) :=
  match r with
  | some fs => bks ++ [some (sealRun fs)]
  | none => bks

/-- Result of one iteration of the `while (!FieldsOut.empty())` loop. -/
inductive StepRes where
  | cont (st : BState)
  | done (bks : List (Option Bucket))
deriving DecidableEq

/-- The body of one loop iteration after the force-close check, processing
the front field `f`: the bitfield-run branch (lines 99-109), the run
seal, oversized-field isolation (lines 121-128), the fit/append and full
check (lines 130-139), and the skip/re-enqueue path (lines 140-146). -/
def stepBody (f : Field) (rest : List Field) (s : Nat) (cur : Option Bucket)
    (brun : Option (List Field)) (bks : List (Option Bucket)) : BState :=
  if runP f then
    ⟨rest, s, cur, some (brun.getD [] ++ [f]), bks⟩
  else
    let bks1 := pushOptRun brun bks
    let cur1 := cur.getD ⟨[], 0, false⟩
    if CACHE_LINE ≤ f.width then
      ⟨rest, s, some cur1, none, bks1 ++ [some ⟨[f], f.width, false⟩]⟩
    else if cur1.size + f.width ≤ CACHE_LINE then
      let cur2 : Bucket := ⟨cur1.fields ++ [f], cur1.size + f.width, false⟩
      if CACHE_LINE ≤ cur2.size then
        ⟨rest, 0, none, none, bks1 ++ [some cur2]⟩
      else
        ⟨rest, s, some cur2, none, bks1⟩
    else
      ⟨rest ++ [f], s + 1, some cur1, none, bks1⟩

/-- One iteration of the loop: exit and tie off the open buckets when the
queue is empty (lines 150-160); otherwise run the force-close check
(lines 90-93, `Skipped >= FieldsOut.size()` pushes `CurrentBucket` even
when null and resets `Skipped`), then the body. -/
def buildStep (st : BState) : StepRes :=
  match st.q with
  | [] => .done (pushOptRun st.brun (pushOptCur st.cur st.bks))
  | f :: rest =>
    if st.q.length ≤ st.s then
      .cont (stepBody f rest 0 none st.brun (st.bks ++ [st.cur]))
    else
      .cont (stepBody f rest st.s st.cur st.brun st.bks)

/-- Fueled iteration of `buildStep`; the fuel is an upper bound on the
number of loop iterations, proved sufficient below. -/
def buildGo : Nat → BState → Option (List (Option Bucket))
  | 0, _ => none
  | fuel + 1, st =>
    match buildStep st with
    | .done bks => some bks
    | .cont st' => buildGo fuel st'

/-- Termination measure of the loop: lexicographic (queue length, queue
length minus skipped), flattened into one natural number. -/
def psi (st : BState) : Nat := st.q.length * (st.q.length + 1) + (st.q.length - st.s)

/-- Fuel sufficient for any input of length `n`. -/
def buildFuel (n : Nat) : Nat := n * (n + 1) + n + 1

/-- The bucket-building pass of `Randstruct::randomize` (lines 74-160). -/
def buildBuckets (fields : List Field) : Option (List (Option Bucket)) :=
  buildGo (buildFuel fields.length) ⟨fields, 0, none, none, []⟩

/-- Applying an index permutation to a list; together with `IsShuffle`
this models one `std::shuffle` call. -/
def applyPerm (idxs : List Nat) (l : List α) : List α :=
  idxs.filterMap (fun i => l[i]?)

/-- The contract of `std::shuffle` with a URBG: the produced index list is
a permutation of the positions. -/
def IsShuffle (sp : Nat → Nat → List Nat × Nat) : Prop :=
  ∀ g n, ((sp g n).1).Perm (List.range n)

/-- The identity shuffle, used to instantiate the shuffle parameter on
concrete inputs. -/
def idShuffle : Nat → Nat → List Nat × Nat := fun g n => (List.range n, g)

/-- The RNG object `std::mt19937 RNG;` is default-constructed: its initial
state is the fixed default seed 5489 of the Mersenne-twister engine. -/
def mt19937Seed : Nat := 5489

/-- Lines 166-173: walk the shuffled buckets, shuffling the fields of every
bucket that is not a `BitfieldRun` (threading the generator state), and
concatenate.  Dereferencing a null bucket entry is undefined behaviour,
modelled as `none`. -/
def flattenGo (sp : Nat → Nat → List Nat × Nat) : Nat → List (Option Bucket) → Option (List Field)
  | _, [] => some []
  | _, none :: _ => none
  | g, some b :: rest =>
    if b.isRun then
      (flattenGo sp g rest).map (fun t => b.fields ++ t)
    else
      (flattenGo sp (sp g b.fields.length).2 rest).map
        (fun t => applyPerm (sp g b.fields.length).1 b.fields ++ t)

/-- The whole of `Randstruct::randomize` (lines 69-176): build the buckets, shuffle the
bucket order with the default-seeded generator, then flatten with
per-bucket shuffles. -/
def randomize (sp : Nat → Nat → List Nat × Nat) (fields : List Field) : Option (List Field) :=
  match buildBuckets fields with
  | none => none
  | some bl =>
    flattenGo sp (sp mt19937Seed bl.length).2 (applyPerm (sp mt19937Seed bl.length).1 bl)

/-- Two invocations of `Randstruct::randomize` on the same input, as
performed by two identical builds: each invocation declares its own
default-constructed `std::mt19937`, so both start from the same state. -/
def randomizeTwice (sp : Nat → Nat → List Nat × Nat) (fields : List Field) :
    Option (List Field) × Option (List Field) :=
  (randomize sp fields, randomize sp fields)

/-- The predicate `shouldRandomize` (lines 189-202): unions are rejected first; the
conflict case only emits a diagnostic (a host side effect outside the
model); the result is `!HasNoRandAttr && HasRandAttr`. -/
def shouldRandomize (isUnion hasRandAttr hasNoRandAttr : Bool) : Bool :=
  if isUnion then false else (!hasNoRandAttr && hasRandAttr)

/-- A declaration of the record: either a `FieldDecl` or any other `Decl`. -/
inductive Decl where
  | fieldD (f : Field)
  | otherD (n : Nat)
deriving DecidableEq

/-- The partition loop of `randomizeStructureLayout` (lines 210-221):
non-fields go to `Others`, incomplete-array fields overwrite `VLA`, all
other fields go to `Fields`. -/
def partGo : List Decl → List Decl → List Field → Option Field →
    List Decl × List Field × Option Field
  | [], os, fs, v => (os, fs, v)
  | Decl.fieldD f :: rest, os, fs, v =>
    if f.isIncompleteArray then partGo rest os fs (some f)
    else partGo rest os (fs ++ [f]) v
  | Decl.otherD n :: rest, os, fs, v => partGo rest (os ++ [Decl.otherD n]) fs v

/-- Partition of the declaration list into (`Others`, `Fields`, `VLA`). -/
def partitionDecls (ds : List Decl) : List Decl × List Field × Option Field :=
  partGo ds [] [] none

/-- The entry point `randomizeStructureLayout` (lines 204-233): partition, randomize the
plain fields, then reassemble `Others ++ Fields ++ [VLA]`. -/
def randomizeStructureLayout (sp : Nat → Nat → List Nat × Nat) (ds : List Decl) :
    Option (List Decl) :=
  match randomize sp (partitionDecls ds).2.1 with
  | none => none
  | some fs =>
    some ((partitionDecls ds).1 ++ fs.map Decl.fieldD ++
      (match (partitionDecls ds).2.2 with
       | some v => [Decl.fieldD v]
       | none => []))

/-- The member (field) sequence of a declaration list. -/
def memberSeq (ds : List Decl) : List Field :=
  ds.filterMap (fun d => match d with | Decl.fieldD g => some g | Decl.otherD _ => none)

/-- The subsequence of incomplete-array members of a declaration list. -/
def incompleteSeq (ds : List Decl) : List Field :=
  ds.filterMap (fun d =>
    match d with
    | Decl.fieldD g => if g.isIncompleteArray then some g else none
    | Decl.otherD _ => none)

/-- Fields held by an optional bucket. -/
def obFields : Option Bucket → List Field
  | none => []
  | some b => b.fields

/-- Fields held by an optional open bitfield run. -/
def orFields : Option (List Field) → List Field
  | none => []
  | some r => r

/-- All fields held by a bucket list, in order. -/
def flatOB (bl : List (Option Bucket)) : List Field := bl.flatMap obFields

/-- All member handles owned by a loop state. -/
def stContent (st : BState) : Multiset Field :=
  ↑st.q + ↑(orFields st.brun) + ↑(obFields st.cur) + ↑(flatOB st.bks)

/-- Maximal runs of consecutive non-zero-width bitfields, with a pending
accumulator. -/
def runsOfAux (acc : List Field) : List Field → List (List Field)
  | [] => (match acc with | [] => [] | _ => [acc])
  | f :: rest =>
    if runP f then runsOfAux (acc ++ [f]) rest
    else (match acc with | [] => [] | _ => [acc]) ++ runsOfAux [] rest

/-- The maximal runs of consecutive non-zero-width bitfield members of a
member list, in order. -/
def runsOf (l : List Field) : List (List Field) := runsOfAux [] l

/-- The list `r` occurs contiguously (as a factor) inside `l`. -/
def isSubseg (r l : List α) : Prop := ∃ u v, l = u ++ r ++ v

/-- A sealed bucket flagged as a bitfield run holds only non-zero-width
bitfields. -/
def ROK (ob : Option Bucket) : Prop :=
  ∀ b, ob = some b → b.isRun = true → ∀ f ∈ b.fields, runP f = true

/-- A sealed bucket holding a non-run member of width at least the bucket
capacity holds that member alone. -/
def BOK (ob : Option Bucket) : Prop :=
  ∀ b, ob = some b → ∀ f ∈ b.fields, runP f = false → CACHE_LINE ≤ f.width → b.fields = [f]

/-- Every maximal bitfield run still reachable from a loop state ends up
sealed, as is, in the final bucket list `out`. -/
def RunsClaim (st : BState) (out : List (Option Bucket)) : Prop :=
  (∀ p, st.brun = some p →
    some (sealRun (p ++ st.q.takeWhile runP)) ∈ out ∧
      ∀ r ∈ runsOf (st.q.dropWhile runP), some (sealRun r) ∈ out) ∧
  (st.brun = none → ∀ r ∈ runsOf st.q, some (sealRun r) ∈ out)

/-- Concrete example fields used to instantiate theorems on inputs. -/
def mkF (i : Nat) (bf zw : Bool) (w : Nat) (inc : Bool) : Field := ⟨i, bf, zw, w, inc⟩

def aF : Field := mkF 0 false false 32 false
def bF : Field := mkF 1 false false 32 false
def cF : Field := mkF 2 false false 32 false
def xF : Field := mkF 10 true false 1 false
def yF : Field := mkF 11 true false 1 false
def wF : Field := mkF 13 true false 1 false
def zF : Field := mkF 12 true true 32 false
def a7 : Field := mkF 0 false false 40 false
def b7 : Field := mkF 1 false false 40 false
def c7 : Field := mkF 2 false false 10 false
def A8 : Field := mkF 0 true false 64 false
def B8 : Field := mkF 1 true false 64 false
def big8 : Field := mkF 3 false false 80 false
def v1F : Field := mkF 20 false false 0 true
def v2F : Field := mkF 21 false false 0 true

/-! ### Generic list lemmas -/

theorem dropWhile_length_le (p : α → Bool) (l : List α) :
    (l.dropWhile p).length ≤ l.length := by
  induction l with
  | nil => simp [List.dropWhile]
  | cons a t ih =>
    cases h : p a
    · simp [List.dropWhile_cons, h]
    · simp [List.dropWhile_cons, h]
      omega

theorem applyPerm_range (l : List α) : applyPerm (List.range l.length) l = l := by
  induction l with
  | nil => rfl
  | cons a t ih =>
    simp only [applyPerm] at ih ⊢
    rw [List.length_cons, List.range_succ_eq_map]
    simp only [List.filterMap_cons, List.getElem?_cons_zero, List.filterMap_map]
    have hcomp : ((fun i => (a :: t)[i]?) ∘ Nat.succ) = fun i => t[i]? := by
      funext i
      simp [List.getElem?_cons_succ]
    rw [hcomp, ih]

theorem applyPerm_perm {l : List α} {idxs : List Nat}
    (h : idxs.Perm (List.range l.length)) : (applyPerm idxs l).Perm l := by
  have h2 : (applyPerm idxs l).Perm (applyPerm (List.range l.length) l) :=
    List.Perm.filterMap _ h
  rw [applyPerm_range] at h2
  exact h2

theorem takeWhile_append_single (p : α → Bool) (f : α) (hf : p f = false) (l : List α) :
    (l ++ [f]).takeWhile p = l.takeWhile p := by
  induction l with
  | nil => simp [List.takeWhile, hf]
  | cons a t ih =>
    cases h : p a <;> simp [List.takeWhile_cons, h, ih]

theorem dropWhile_append_single (p : α → Bool) (f : α) (hf : p f = false) (l : List α) :
    (l ++ [f]).dropWhile p = l.dropWhile p ++ [f] := by
  induction l with
  | nil => simp [List.dropWhile, hf]
  | cons a t ih =>
    cases h : p a <;> simp [List.dropWhile_cons, h, ih]

theorem getLast?_cons_ne {l : List α} (a : α) (hl : l ≠ []) :
    (a :: l).getLast? = l.getLast? := by
  cases l with
  | nil => exact absurd rfl hl
  | cons b t => exact List.getLast?_cons_cons

theorem exists_append_of_getLast? {l : List α} {a : α} (h : l.getLast? = some a) :
    ∃ l', l = l' ++ [a] := by
  induction l with
  | nil => simp at h
  | cons b t ih =>
    cases t with
    | nil =>
      simp at h
      subst h
      exact ⟨[], rfl⟩
    | cons c t' =>
      rw [List.getLast?_cons_cons] at h
      obtain ⟨l', hl⟩ := ih h
      exact ⟨b :: l', by rw [hl]; rfl⟩

/-! ### The maximal-run decomposition -/

theorem runsOfAux_pending (l : List Field) :
    ∀ acc, acc ≠ [] →
      runsOfAux acc l = (acc ++ l.takeWhile runP) :: runsOf (l.dropWhile runP) := by
  induction l with
  | nil =>
    intro acc hacc
    cases acc with
    | nil => exact absurd rfl hacc
    | cons a t => simp [runsOfAux, runsOf, List.takeWhile, List.dropWhile]
  | cons f rest ih =>
    intro acc hacc
    cases hf : runP f
    · cases acc with
      | nil => exact absurd rfl hacc
      | cons a t =>
        simp only [runsOfAux, hf, List.takeWhile_cons, List.dropWhile_cons]
        simp [runsOf, runsOfAux, hf]
    · have hne : acc ++ [f] ≠ [] := fun hcon => by simp at hcon
      simp only [runsOfAux, hf, if_pos]
      rw [ih (acc ++ [f]) hne]
      simp [List.takeWhile_cons, List.dropWhile_cons, hf]

theorem runsOf_cons_pos {f : Field} (hf : runP f = true) (rest : List Field) :
    runsOf (f :: rest) = (f :: rest.takeWhile runP) :: runsOf (rest.dropWhile runP) := by
  rw [runsOf]
  simp only [runsOfAux, hf, if_pos]
  simpa using runsOfAux_pending rest [f] (by simp)

theorem runsOf_cons_neg {f : Field} (hf : runP f = false) (rest : List Field) :
    runsOf (f :: rest) = runsOf rest := by
  rw [runsOf]
  simp only [runsOfAux, hf]
  simp [runsOf]

theorem runsOfAux_append_neg {f : Field} (hf : runP f = false) (l : List Field) :
    ∀ acc, runsOfAux acc (l ++ [f]) = runsOfAux acc l := by
  induction l with
  | nil =>
    intro acc
    simp only [List.nil_append]
    simp only [runsOfAux, hf]
    cases acc <;> simp [runsOfAux]
  | cons g t ih =>
    intro acc
    cases hg : runP g
    · simp only [List.cons_append, runsOfAux, hg]
      simp only [Bool.false_eq_true, if_false, List.append_eq]
      rw [ih]
    · simp only [List.cons_append, runsOfAux, hg, if_true, List.append_eq]
      rw [ih]

theorem runsOf_append_neg {f : Field} (hf : runP f = false) (l : List Field) :
    runsOf (l ++ [f]) = runsOf l :=
  runsOfAux_append_neg hf l []

/-! ### Shape of the bucket list along the loop -/

theorem pushOptRun_ext (r : Option (List Field)) (bks : List (Option Bucket)) :
    ∃ e, pushOptRun r bks = bks ++ e := by
  cases r with
  | none => exact ⟨[], by simp [pushOptRun]⟩
  | some fs => exact ⟨[some (sealRun fs)], by simp [pushOptRun]⟩

theorem pushOptCur_ext (cur : Option Bucket) (bks : List (Option Bucket)) :
    ∃ e, pushOptCur cur bks = bks ++ e := by
  cases cur with
  | none => exact ⟨[], by simp [pushOptCur]⟩
  | some b => exact ⟨[some b], by simp [pushOptCur]⟩

theorem stepBody_bks_ext (f : Field) (rest : List Field) (s : Nat) (cur : Option Bucket)
    (brun : Option (List Field)) (bks : List (Option Bucket)) :
    ∃ e, (stepBody f rest s cur brun bks).bks = bks ++ e := by
  obtain ⟨e1, he1⟩ := pushOptRun_ext brun bks
  simp only [stepBody]
  split_ifs
  · exact ⟨[], by simp⟩
  · exact ⟨e1 ++ [some ⟨[f], f.width, false⟩], by simp [he1]⟩
  · exact ⟨e1 ++ [some ⟨(cur.getD ⟨[], 0, false⟩).fields ++ [f],
      (cur.getD ⟨[], 0, false⟩).size + f.width, false⟩], by simp [he1]⟩
  · exact ⟨e1, by simp [he1]⟩
  · exact ⟨e1, by simp [he1]⟩

theorem buildStep_nil {st : BState} (hq : st.q = []) :
    buildStep st = .done (pushOptRun st.brun (pushOptCur st.cur st.bks)) := by
  rw [buildStep, hq]

theorem buildStep_cons {st : BState} {f : Field} {rest : List Field} (hq : st.q = f :: rest) :
    buildStep st =
      if rest.length + 1 ≤ st.s then
        .cont (stepBody f rest 0 none st.brun (st.bks ++ [st.cur]))
      else
        .cont (stepBody f rest st.s st.cur st.brun st.bks) := by
  rw [buildStep, hq]
  simp only [List.length_cons]

theorem buildStep_cont_bks_ext {st st' : BState} (h : buildStep st = .cont st') :
    ∃ e, st'.bks = st.bks ++ e := by
  match hq : st.q with
  | [] => rw [buildStep_nil hq] at h; exact absurd h (by simp)
  | f :: rest =>
    rw [buildStep_cons hq] at h
    by_cases hs : rest.length + 1 ≤ st.s
    · rw [if_pos hs] at h
      obtain ⟨e, he⟩ := stepBody_bks_ext f rest 0 none st.brun (st.bks ++ [st.cur])
      injection h with h'
      exact ⟨[st.cur] ++ e, by rw [← h', he, List.append_assoc]⟩
    · rw [if_neg hs] at h
      injection h with h'
      obtain ⟨e, he⟩ := stepBody_bks_ext f rest st.s st.cur st.brun st.bks
      exact ⟨e, by rw [← h', he]⟩

theorem buildStep_done_ext {st : BState} {out : List (Option Bucket)}
    (h : buildStep st = .done out) : ∃ e, out = st.bks ++ e := by
  match hq : st.q with
  | f :: rest =>
    rw [buildStep_cons hq] at h
    by_cases hs : rest.length + 1 ≤ st.s <;> simp [hs] at h
  | [] =>
    rw [buildStep_nil hq] at h
    injection h with h'
    obtain ⟨e1, he1⟩ := pushOptCur_ext st.cur st.bks
    obtain ⟨e2, he2⟩ := pushOptRun_ext st.brun (pushOptCur st.cur st.bks)
    exact ⟨e1 ++ e2, by rw [← h', he2, he1, List.append_assoc]⟩

theorem buildGo_ext : ∀ (fuel : Nat) (st : BState) (out : List (Option Bucket)),
    buildGo fuel st = some out → ∃ e, out = st.bks ++ e := by
  intro fuel
  induction fuel with
  | zero => intro st out h; exact absurd h (by simp [buildGo])
  | succ fuel ih =>
    intro st out h
    rw [buildGo] at h
    match hstep : buildStep st with
    | .done bks =>
      rw [hstep] at h
      injection h with h'
      subst h'
      exact buildStep_done_ext hstep
    | .cont st' =>
      rw [hstep] at h
      obtain ⟨e1, he1⟩ := buildStep_cont_bks_ext hstep
      obtain ⟨e2, he2⟩ := ih st' out h
      exact ⟨e1 ++ e2, by rw [he2, he1, List.append_assoc]⟩

/-! ### Termination: the fuel bound is sufficient -/

theorem arith_shrink (m s s' : Nat) :
    m * (m + 1) + (m - s') < (m + 1) * (m + 1 + 1) + ((m + 1) - s) := by
  have h1 : m - s' ≤ m := Nat.sub_le m s'
  have e1 : m * (m + 1) = m * m + m := by ring
  have e2 : (m + 1) * (m + 1 + 1) = m * m + 3 * m + 2 := by ring
  rw [e1, e2]
  obtain ⟨K, hK⟩ : ∃ K, m * m = K := ⟨_, rfl⟩
  rw [hK]
  omega

theorem stepBody_psi_site_a (f : Field) (rest : List Field) (s : Nat) (cur : Option Bucket)
    (brun : Option (List Field)) (bks : List (Option Bucket))
    (hs : s < rest.length + 1) :
    psi (stepBody f rest s cur brun bks) <
      (rest.length + 1) * (rest.length + 1 + 1) + ((rest.length + 1) - s) := by
  simp only [stepBody]
  split_ifs
  · simp only [psi]; exact arith_shrink rest.length s s
  · simp only [psi]; exact arith_shrink rest.length s s
  · simp only [psi]; exact arith_shrink rest.length s 0
  · simp only [psi]; exact arith_shrink rest.length s s
  · simp only [psi, List.length_append, List.length_singleton]
    obtain ⟨K, hK⟩ : ∃ K, (rest.length + 1) * (rest.length + 1 + 1) = K := ⟨_, rfl⟩
    rw [hK]
    omega

theorem stepBody_psi_site_b (f : Field) (rest : List Field)
    (brun : Option (List Field)) (bks : List (Option Bucket)) :
    psi (stepBody f rest 0 none brun bks) <
      (rest.length + 1) * (rest.length + 1 + 1) := by
  simp only [stepBody]
  split_ifs with h1 h2 h3 h4
  · simp only [psi]
    have := arith_shrink rest.length (rest.length + 1) 0
    omega
  · simp only [psi]
    have := arith_shrink rest.length (rest.length + 1) 0
    omega
  · simp only [psi]
    have := arith_shrink rest.length (rest.length + 1) 0
    omega
  · simp only [psi]
    have := arith_shrink rest.length (rest.length + 1) 0
    omega
  · exfalso
    simp only [Option.getD, CACHE_LINE] at h2 h3
    omega

theorem buildStep_psi_lt {st st' : BState} (h : buildStep st = .cont st') :
    psi st' < psi st := by
  match hq : st.q with
  | [] => rw [buildStep_nil hq] at h; exact absurd h (by simp)
  | f :: rest =>
    rw [buildStep_cons hq] at h
    by_cases hs : rest.length + 1 ≤ st.s
    · rw [if_pos hs] at h
      injection h with h'
      subst h'
      have hpsi : psi st = (rest.length + 1) * (rest.length + 1 + 1) := by
        simp only [psi, hq, List.length_cons]
        have : rest.length + 1 - st.s = 0 := by omega
        rw [this, Nat.add_zero]
      rw [hpsi]
      exact stepBody_psi_site_b f rest st.brun (st.bks ++ [st.cur])
    · rw [if_neg hs] at h
      injection h with h'
      subst h'
      have hpsi : psi st = (rest.length + 1) * (rest.length + 1 + 1) + (rest.length + 1 - st.s) := by
        simp only [psi, hq, List.length_cons]
      rw [hpsi]
      exact stepBody_psi_site_a f rest st.s st.cur st.brun st.bks (by omega)

theorem buildGo_isSome : ∀ (fuel : Nat) (st : BState), psi st < fuel →
    (buildGo fuel st).isSome := by
  intro fuel
  induction fuel with
  | zero => intro st h; omega
  | succ fuel ih =>
    intro st h
    rw [buildGo]
    match hstep : buildStep st with
    | .done bks => simp
    | .cont st' =>
      simp only []
      exact ih st' (by have := buildStep_psi_lt hstep; omega)

theorem buildBuckets_isSome (fields : List Field) : (buildBuckets fields).isSome := by
  apply buildGo_isSome
  simp only [psi, buildFuel]
  omega

/-! ### Case analysis of one loop-body execution -/

theorem stepBody_cases (f : Field) (rest : List Field) (s : Nat) (cur : Option Bucket)
    (brun : Option (List Field)) (bks : List (Option Bucket)) :
    (runP f = true ∧
      stepBody f rest s cur brun bks = ⟨rest, s, cur, some (brun.getD [] ++ [f]), bks⟩) ∨
    (runP f = false ∧ CACHE_LINE ≤ f.width ∧
      stepBody f rest s cur brun bks =
        ⟨rest, s, some (cur.getD ⟨[], 0, false⟩), none,
          pushOptRun brun bks ++ [some ⟨[f], f.width, false⟩]⟩) ∨
    (runP f = false ∧ f.width < CACHE_LINE ∧
      (cur.getD ⟨[], 0, false⟩).size + f.width ≤ CACHE_LINE ∧
      CACHE_LINE ≤ (cur.getD ⟨[], 0, false⟩).size + f.width ∧
      stepBody f rest s cur brun bks =
        ⟨rest, 0, none, none,
          pushOptRun brun bks ++
            [some ⟨(cur.getD ⟨[], 0, false⟩).fields ++ [f],
              (cur.getD ⟨[], 0, false⟩).size + f.width, false⟩]⟩) ∨
    (runP f = false ∧ f.width < CACHE_LINE ∧
      (cur.getD ⟨[], 0, false⟩).size + f.width ≤ CACHE_LINE ∧
      (cur.getD ⟨[], 0, false⟩).size + f.width < CACHE_LINE ∧
      stepBody f rest s cur brun bks =
        ⟨rest, s, some ⟨(cur.getD ⟨[], 0, false⟩).fields ++ [f],
          (cur.getD ⟨[], 0, false⟩).size + f.width, false⟩, none, pushOptRun brun bks⟩) ∨
    (runP f = false ∧ f.width < CACHE_LINE ∧
      CACHE_LINE < (cur.getD ⟨[], 0, false⟩).size + f.width ∧
      stepBody f rest s cur brun bks =
        ⟨rest ++ [f], s + 1, some (cur.getD ⟨[], 0, false⟩), none, pushOptRun brun bks⟩) := by
  simp only [stepBody]
  split_ifs with h1 h2 h3 h4
  · exact Or.inl ⟨h1, rfl⟩
  · exact Or.inr (Or.inl ⟨by simpa using h1, h2, rfl⟩)
  · exact Or.inr (Or.inr (Or.inl ⟨by simpa using h1, by omega, h3, h4, rfl⟩))
  · exact Or.inr (Or.inr (Or.inr (Or.inl ⟨by simpa using h1, by omega, h3, by omega, rfl⟩)))
  · exact Or.inr (Or.inr (Or.inr (Or.inr ⟨by simpa using h1, by omega, by omega, rfl⟩)))

/-! ### The loop neither drops nor duplicates a member -/

theorem orFields_getD (brun : Option (List Field)) : brun.getD [] = orFields brun := by
  cases brun <;> rfl

theorem obFields_getD (cur : Option Bucket) :
    (cur.getD ⟨[], 0, false⟩).fields = obFields cur := by
  cases cur <;> rfl

theorem obFields_some (b : Bucket) : obFields (some b) = b.fields := rfl

theorem obFields_none : obFields none = [] := rfl

theorem orFields_some (r : List Field) : orFields (some r) = r := rfl

theorem orFields_none : orFields none = [] := rfl

theorem flatOB_append (l₁ l₂ : List (Option Bucket)) :
    flatOB (l₁ ++ l₂) = flatOB l₁ ++ flatOB l₂ := by
  simp [flatOB]

theorem flatOB_single (ob : Option Bucket) : flatOB [ob] = obFields ob := by
  simp [flatOB]

theorem flatOB_pushOptRun (brun : Option (List Field)) (bks : List (Option Bucket)) :
    flatOB (pushOptRun brun bks) = flatOB bks ++ orFields brun := by
  cases brun <;> simp [pushOptRun, flatOB, sealRun, orFields, obFields]

theorem flatOB_pushOptCur (cur : Option Bucket) (bks : List (Option Bucket)) :
    flatOB (pushOptCur cur bks) = flatOB bks ++ obFields cur := by
  cases cur <;> simp [pushOptCur, flatOB, obFields]

theorem stepBody_content (f : Field) (rest : List Field) (s : Nat) (cur : Option Bucket)
    (brun : Option (List Field)) (bks : List (Option Bucket)) :
    stContent (stepBody f rest s cur brun bks) =
      ↑(f :: rest) + ↑(orFields brun) + ↑(obFields cur) + ↑(flatOB bks) := by
  rcases stepBody_cases f rest s cur brun bks with
      ⟨h1, heq⟩ | ⟨h1, h2, heq⟩ | ⟨h1, h2, h3, h4, heq⟩ | ⟨h1, h2, h3, h4, heq⟩ | ⟨h1, h2, h3, heq⟩ <;>
    rw [heq] <;>
    simp only [stContent, orFields_some, orFields_none, obFields_some, obFields_none,
      orFields_getD, obFields_getD, flatOB_append, flatOB_single, flatOB_pushOptRun,
      flatOB_pushOptCur, ← Multiset.coe_add, ← Multiset.cons_coe, ← Multiset.singleton_add,
      Multiset.coe_nil] <;>
    abel

theorem buildStep_cont_content {st st' : BState} (h : buildStep st = .cont st') :
    stContent st' = stContent st := by
  match hq : st.q with
  | [] => rw [buildStep_nil hq] at h; exact absurd h (by simp)
  | f :: rest =>
    rw [buildStep_cons hq] at h
    by_cases hs : rest.length + 1 ≤ st.s
    · rw [if_pos hs] at h
      injection h with h'
      subst h'
      rw [stepBody_content]
      simp only [stContent, hq, obFields_none, flatOB_append, flatOB_single,
        ← Multiset.coe_add, Multiset.coe_nil]
      abel
    · rw [if_neg hs] at h
      injection h with h'
      subst h'
      rw [stepBody_content]
      simp only [stContent, hq]

theorem buildGo_content : ∀ (fuel : Nat) (st : BState) (out : List (Option Bucket)),
    buildGo fuel st = some out → (↑(flatOB out) : Multiset Field) = stContent st := by
  intro fuel
  induction fuel with
  | zero => intro st out h; exact absurd h (by simp [buildGo])
  | succ fuel ih =>
    intro st out h
    rw [buildGo] at h
    match hstep : buildStep st with
    | .done bks =>
      rw [hstep] at h
      injection h with h'
      subst h'
      match hq : st.q with
      | f :: rest =>
        rw [buildStep_cons hq] at hstep
        by_cases hs : rest.length + 1 ≤ st.s <;> simp [hs] at hstep
      | [] =>
        rw [buildStep_nil hq] at hstep
        injection hstep with h2
        rw [← h2]
        simp only [stContent, hq, flatOB_pushOptRun, flatOB_pushOptCur,
          ← Multiset.coe_add, Multiset.coe_nil]
        abel
    | .cont st' =>
      rw [hstep] at h
      rw [ih st' out h]
      exact buildStep_cont_content hstep

/-! ### A null bucket is never dereferenced -/

theorem allSome_pushOptRun (brun : Option (List Field)) (bks : List (Option Bucket))
    (h : ∀ b ∈ bks, b.isSome) : ∀ b ∈ pushOptRun brun bks, b.isSome := by
  cases brun with
  | none => exact h
  | some r =>
    intro b hb
    rcases List.mem_append.1 hb with hb | hb
    · exact h b hb
    · simp at hb; subst hb; rfl

theorem allSome_pushOptCur (cur : Option Bucket) (bks : List (Option Bucket))
    (h : ∀ b ∈ bks, b.isSome) : ∀ b ∈ pushOptCur cur bks, b.isSome := by
  cases cur with
  | none => exact h
  | some c =>
    intro b hb
    rcases List.mem_append.1 hb with hb | hb
    · exact h b hb
    · simp at hb; subst hb; rfl

theorem stepBody_inv_some (f : Field) (rest : List Field) (s : Nat) (cur : Option Bucket)
    (brun : Option (List Field)) (bks : List (Option Bucket))
    (hcur : s ≠ 0 → cur.isSome) (hbks : ∀ b ∈ bks, b.isSome) :
    ((stepBody f rest s cur brun bks).s ≠ 0 → (stepBody f rest s cur brun bks).cur.isSome) ∧
    (∀ b ∈ (stepBody f rest s cur brun bks).bks, b.isSome) := by
  rcases stepBody_cases f rest s cur brun bks with
      ⟨h1, heq⟩ | ⟨h1, h2, heq⟩ | ⟨h1, h2, h3, h4, heq⟩ | ⟨h1, h2, h3, h4, heq⟩ | ⟨h1, h2, h3, heq⟩ <;>
    rw [heq]
  · exact ⟨hcur, hbks⟩
  · refine ⟨fun _ => rfl, fun b hb => ?_⟩
    rcases List.mem_append.1 hb with hb | hb
    · exact allSome_pushOptRun brun bks hbks b hb
    · simp at hb; subst hb; rfl
  · refine ⟨fun hc => absurd rfl hc, fun b hb => ?_⟩
    rcases List.mem_append.1 hb with hb | hb
    · exact allSome_pushOptRun brun bks hbks b hb
    · simp at hb; subst hb; rfl
  · exact ⟨fun _ => rfl, allSome_pushOptRun brun bks hbks⟩
  · exact ⟨fun _ => rfl, allSome_pushOptRun brun bks hbks⟩

theorem buildStep_inv_some {st st' : BState} (h : buildStep st = .cont st')
    (hcur : st.s ≠ 0 → st.cur.isSome) (hbks : ∀ b ∈ st.bks, b.isSome) :
    (st'.s ≠ 0 → st'.cur.isSome) ∧ (∀ b ∈ st'.bks, b.isSome) := by
  match hq : st.q with
  | [] => rw [buildStep_nil hq] at h; exact absurd h (by simp)
  | f :: rest =>
    rw [buildStep_cons hq] at h
    by_cases hs : rest.length + 1 ≤ st.s
    · rw [if_pos hs] at h
      injection h with h'
      subst h'
      apply stepBody_inv_some
      · intro hc; exact absurd rfl hc
      · intro b hb
        rcases List.mem_append.1 hb with hb | hb
        · exact hbks b hb
        · simp at hb
          subst hb
          exact hcur (by omega)
    · rw [if_neg hs] at h
      injection h with h'
      subst h'
      exact stepBody_inv_some f rest st.s st.cur st.brun st.bks hcur hbks

theorem buildGo_allSome : ∀ (fuel : Nat) (st : BState) (out : List (Option Bucket)),
    buildGo fuel st = some out → (st.s ≠ 0 → st.cur.isSome) → (∀ b ∈ st.bks, b.isSome) →
    ∀ b ∈ out, b.isSome := by
  intro fuel
  induction fuel with
  | zero => intro st out h; exact absurd h (by simp [buildGo])
  | succ fuel ih =>
    intro st out h hcur hbks
    rw [buildGo] at h
    match hstep : buildStep st with
    | .done bks =>
      rw [hstep] at h
      injection h with h'
      subst h'
      match hq : st.q with
      | f :: rest =>
        rw [buildStep_cons hq] at hstep
        by_cases hs : rest.length + 1 ≤ st.s <;> simp [hs] at hstep
      | [] =>
        rw [buildStep_nil hq] at hstep
        injection hstep with h2
        rw [← h2]
        exact allSome_pushOptRun _ _ (allSome_pushOptCur _ _ hbks)
    | .cont st' =>
      rw [hstep] at h
      obtain ⟨hcur', hbks'⟩ := buildStep_inv_some hstep hcur hbks
      exact ih st' out h hcur' hbks'

theorem buildBuckets_allSome {fields : List Field} {bl : List (Option Bucket)}
    (h : buildBuckets fields = some bl) : ∀ b ∈ bl, b.isSome :=
  buildGo_allSome _ _ _ h (fun hc => absurd rfl hc) (fun b hb => absurd hb (List.not_mem_nil b))

/-! ### Run buckets are pure and oversized members are isolated -/

theorem rokbok_pushOptRun (brun : Option (List Field)) (bks : List (Option Bucket))
    (hrun : ∀ f' ∈ orFields brun, runP f' = true)
    (hbks : ∀ ob ∈ bks, ROK ob ∧ BOK ob) :
    ∀ ob ∈ pushOptRun brun bks, ROK ob ∧ BOK ob := by
  cases brun with
  | none => exact hbks
  | some r =>
    intro ob hob
    rcases List.mem_append.1 hob with hob | hob
    · exact hbks ob hob
    · simp at hob
      subst hob
      constructor
      · intro b hb _ f' hf'
        injection hb with hb'
        subst hb'
        exact hrun f' hf'
      · intro b hb f' hf' hnp _
        injection hb with hb'
        subst hb'
        exact absurd (hrun f' hf') (by simp [hnp])

theorem rok_bok_cur (cur : Option Bucket)
    (hw : ∀ f' ∈ obFields cur, f'.width < CACHE_LINE)
    (hg : ∀ b, cur = some b → b.isRun = false) :
    ROK cur ∧ BOK cur := by
  constructor
  · intro b hb hrunb
    rw [hg b hb] at hrunb
    exact absurd hrunb (by simp)
  · intro b hb f' hf' _ hbig
    have : f'.width < CACHE_LINE := by
      apply hw
      rw [hb]
      exact hf'
    omega

theorem stepBody_inv_buckets (f : Field) (rest : List Field) (s : Nat) (cur : Option Bucket)
    (brun : Option (List Field)) (bks : List (Option Bucket))
    (hrun : ∀ f' ∈ orFields brun, runP f' = true)
    (hw : ∀ f' ∈ obFields cur, f'.width < CACHE_LINE)
    (hg : ∀ b, cur = some b → b.isRun = false)
    (hbks : ∀ ob ∈ bks, ROK ob ∧ BOK ob) :
    (∀ f' ∈ orFields (stepBody f rest s cur brun bks).brun, runP f' = true) ∧
    (∀ f' ∈ obFields (stepBody f rest s cur brun bks).cur, f'.width < CACHE_LINE) ∧
    (∀ b, (stepBody f rest s cur brun bks).cur = some b → b.isRun = false) ∧
    (∀ ob ∈ (stepBody f rest s cur brun bks).bks, ROK ob ∧ BOK ob) := by
  rcases stepBody_cases f rest s cur brun bks with
      ⟨h1, heq⟩ | ⟨h1, h2, heq⟩ | ⟨h1, h2, h3, h4, heq⟩ | ⟨h1, h2, h3, h4, heq⟩ | ⟨h1, h2, h3, heq⟩ <;>
    rw [heq]
  · refine ⟨?_, hw, hg, hbks⟩
    intro f' hf'
    rw [orFields_some, orFields_getD] at hf'
    rcases List.mem_append.1 hf' with hf' | hf'
    · exact hrun f' hf'
    · simp at hf'
      subst hf'
      exact h1
  · refine ⟨by simp [orFields_none], ?_, ?_, ?_⟩
    · intro f' hf'
      rw [obFields_some, obFields_getD] at hf'
      exact hw f' hf'
    · intro b hb
      injection hb with hb'
      subst hb'
      cases hc : cur with
      | none => rfl
      | some c =>
        have hred : ((some c).getD (⟨[], 0, false⟩ : Bucket)) = c := rfl
        rw [hred]
        exact hg c hc
    · intro ob hob
      rcases List.mem_append.1 hob with hob | hob
      · exact rokbok_pushOptRun brun bks hrun hbks ob hob
      · simp at hob
        subst hob
        constructor
        · intro b hb hrunb
          injection hb with hb'
          subst hb'
          exact absurd hrunb (by simp)
        · intro b hb f' hf' _ _
          injection hb with hb'
          subst hb'
          simp at hf'
          subst hf'
          rfl
  · refine ⟨by simp [orFields_none], by simp [obFields_none], by simp, ?_⟩
    intro ob hob
    rcases List.mem_append.1 hob with hob | hob
    · exact rokbok_pushOptRun brun bks hrun hbks ob hob
    · simp at hob
      subst hob
      constructor
      · intro b hb hrunb
        injection hb with hb'
        subst hb'
        exact absurd hrunb (by simp)
      · intro b hb f' hf' _ hbig
        injection hb with hb'
        subst hb'
        simp only [obFields_getD] at hf'
        rcases List.mem_append.1 hf' with hf' | hf'
        · have : f'.width < CACHE_LINE := hw f' hf'
          omega
        · simp at hf'
          subst hf'
          omega
  · refine ⟨by simp [orFields_none], ?_, ?_, ?_⟩
    · intro f' hf'
      rw [obFields_some] at hf'
      simp only [obFields_getD] at hf'
      rcases List.mem_append.1 hf' with hf' | hf'
      · exact hw f' hf'
      · simp at hf'
        subst hf'
        omega
    · intro b hb
      injection hb with hb'
      subst hb'
      rfl
    · exact rokbok_pushOptRun brun bks hrun hbks
  · refine ⟨by simp [orFields_none], ?_, ?_, ?_⟩
    · intro f' hf'
      rw [obFields_some, obFields_getD] at hf'
      exact hw f' hf'
    · intro b hb
      injection hb with hb'
      subst hb'
      cases hc : cur with
      | none => rfl
      | some c =>
        have hred : ((some c).getD (⟨[], 0, false⟩ : Bucket)) = c := rfl
        rw [hred]
        exact hg c hc
    · exact rokbok_pushOptRun brun bks hrun hbks

theorem buildGo_inv_buckets : ∀ (fuel : Nat) (st : BState) (out : List (Option Bucket)),
    buildGo fuel st = some out →
    (∀ f' ∈ orFields st.brun, runP f' = true) →
    (∀ f' ∈ obFields st.cur, f'.width < CACHE_LINE) →
    (∀ b, st.cur = some b → b.isRun = false) →
    (∀ ob ∈ st.bks, ROK ob ∧ BOK ob) →
    ∀ ob ∈ out, ROK ob ∧ BOK ob := by
  intro fuel
  induction fuel with
  | zero => intro st out h; exact absurd h (by simp [buildGo])
  | succ fuel ih =>
    intro st out h hrun hw hg hbks
    rw [buildGo] at h
    match hstep : buildStep st with
    | .done bks =>
      rw [hstep] at h
      injection h with h'
      subst h'
      match hq : st.q with
      | f :: rest =>
        rw [buildStep_cons hq] at hstep
        by_cases hs : rest.length + 1 ≤ st.s <;> simp [hs] at hstep
      | [] =>
        rw [buildStep_nil hq] at hstep
        injection hstep with h2
        rw [← h2]
        apply rokbok_pushOptRun _ _ hrun
        intro ob hob
        cases hc : st.cur with
        | none =>
          rw [hc] at hob
          exact hbks ob hob
        | some c =>
          rw [hc] at hob
          rcases List.mem_append.1 hob with hob | hob
          · exact hbks ob hob
          · simp at hob
            subst hob
            exact rok_bok_cur (some c) (by rw [← hc]; exact hw) (by rw [← hc]; exact hg)
    | .cont st' =>
      rw [hstep] at h
      match hq : st.q with
      | [] => rw [buildStep_nil hq] at hstep; exact absurd hstep (by simp)
      | f :: rest =>
        rw [buildStep_cons hq] at hstep
        by_cases hs : rest.length + 1 ≤ st.s
        · rw [if_pos hs] at hstep
          injection hstep with h'
          subst h'
          have hbks2 : ∀ ob ∈ st.bks ++ [st.cur], ROK ob ∧ BOK ob := by
            intro ob hob
            rcases List.mem_append.1 hob with hob | hob
            · exact hbks ob hob
            · simp at hob
              subst hob
              exact rok_bok_cur st.cur hw hg
          obtain ⟨i1, i2, i3, i4⟩ := stepBody_inv_buckets f rest 0 none st.brun
            (st.bks ++ [st.cur]) hrun (by simp [obFields_none]) (by simp) hbks2
          exact ih _ out h i1 i2 i3 i4
        · rw [if_neg hs] at hstep
          injection hstep with h'
          subst h'
          obtain ⟨i1, i2, i3, i4⟩ := stepBody_inv_buckets f rest st.s st.cur st.brun
            st.bks hrun hw hg hbks
          exact ih _ out h i1 i2 i3 i4

theorem buildBuckets_inv_buckets {fields : List Field} {bl : List (Option Bucket)}
    (h : buildBuckets fields = some bl) : ∀ ob ∈ bl, ROK ob ∧ BOK ob :=
  buildGo_inv_buckets _ _ _ h (by simp [orFields_none]) (by simp [obFields_none])
    (by simp) (fun ob hob => absurd hob (List.not_mem_nil ob))

/-! ### Every maximal bitfield run is sealed intact -/

theorem runsOf_nil : runsOf [] = [] := rfl

theorem RunsClaim_of_nonbf {st : BState} {f : Field} {rest : List Field}
    {out : List (Option Bucket)} (hq : st.q = f :: rest) (h1 : runP f = false)
    (hrest : ∀ r ∈ runsOf rest, some (sealRun r) ∈ out)
    (hsealed : ∀ p, st.brun = some p → some (sealRun p) ∈ out) :
    RunsClaim st out := by
  constructor
  · intro p hp
    constructor
    · rw [hq]
      simp only [List.takeWhile_cons, h1, Bool.false_eq_true, if_false, List.append_nil]
      exact hsealed p hp
    · intro r hr
      rw [hq] at hr
      simp only [List.dropWhile_cons, h1, Bool.false_eq_true, if_false] at hr
      rw [runsOf_cons_neg h1] at hr
      exact hrest r hr
  · intro _ r hr
    rw [hq, runsOf_cons_neg h1] at hr
    exact hrest r hr

theorem buildGo_runs : ∀ (fuel : Nat) (st : BState) (out : List (Option Bucket)),
    buildGo fuel st = some out → RunsClaim st out := by
  intro fuel
  induction fuel with
  | zero => intro st out h; exact absurd h (by simp [buildGo])
  | succ fuel ih =>
    intro st out h
    rw [buildGo] at h
    match hstep : buildStep st with
    | .done bks =>
      rw [hstep] at h
      injection h with h'
      subst h'
      match hq : st.q with
      | f :: rest =>
        rw [buildStep_cons hq] at hstep
        by_cases hs : rest.length + 1 ≤ st.s <;> simp [hs] at hstep
      | [] =>
        rw [buildStep_nil hq] at hstep
        injection hstep with h2
        constructor
        · intro p hp
          constructor
          · rw [hq]
            simp only [List.takeWhile_nil, List.append_nil]
            rw [← h2, hp]
            simp [pushOptRun]
          · intro r hr
            rw [hq] at hr
            simp only [List.dropWhile_nil, runsOf_nil] at hr
            exact absurd hr (List.not_mem_nil r)
        · intro _ r hr
          rw [hq, runsOf_nil] at hr
          exact absurd hr (List.not_mem_nil r)
    | .cont st' =>
      rw [hstep] at h
      have IH := ih st' out h
      obtain ⟨ext, hext⟩ := buildGo_ext fuel st' out h
      match hq : st.q with
      | [] => rw [buildStep_nil hq] at hstep; exact absurd hstep (by simp)
      | f :: rest =>
        rw [buildStep_cons hq] at hstep
        have hbody : ∃ s0 cur0 bks0, st' = stepBody f rest s0 cur0 st.brun bks0 := by
          by_cases hs : rest.length + 1 ≤ st.s
          · rw [if_pos hs] at hstep
            injection hstep with h'
            exact ⟨0, none, st.bks ++ [st.cur], h'.symm⟩
          · rw [if_neg hs] at hstep
            injection hstep with h'
            exact ⟨st.s, st.cur, st.bks, h'.symm⟩
        obtain ⟨s0, cur0, bks0, hst'⟩ := hbody
        rcases stepBody_cases f rest s0 cur0 st.brun bks0 with
            ⟨h1, heq⟩ | ⟨h1, h2, heq⟩ | ⟨h1, h2, h3, h4, heq⟩ | ⟨h1, h2, h3, h4, heq⟩ |
            ⟨h1, h2, h3, heq⟩
        · -- non-zero-width bitfield: appended to the open run
          rw [heq] at hst'
          subst hst'
          simp only [RunsClaim] at IH
          obtain ⟨ihA, ihB⟩ := IH.1 (st.brun.getD [] ++ [f]) rfl
          constructor
          · intro p hp
            rw [hp] at ihA
            simp only [Option.getD_some] at ihA
            constructor
            · rw [hq]
              simp only [List.takeWhile_cons, h1, if_true]
              simpa [List.append_assoc] using ihA
            · intro r hr
              rw [hq] at hr
              simp only [List.dropWhile_cons, h1, if_true] at hr
              exact ihB r hr
          · intro hbrn
            rw [hbrn] at ihA
            simp only [Option.getD_none] at ihA
            intro r hr
            rw [hq, runsOf_cons_pos h1] at hr
            rcases List.mem_cons.1 hr with hr | hr
            · subst hr
              simpa using ihA
            · exact ihB r hr
        · -- oversized member: run sealed first
          rw [heq] at hst'
          subst hst'
          simp only [RunsClaim] at IH
          have hrest := IH.2 trivial
          apply RunsClaim_of_nonbf hq h1 hrest
          intro p hp
          rw [hext]
          apply List.mem_append_left
          rw [hp]
          simp [pushOptRun]
        · -- member appended and the bucket became full
          rw [heq] at hst'
          subst hst'
          simp only [RunsClaim] at IH
          have hrest := IH.2 trivial
          apply RunsClaim_of_nonbf hq h1 hrest
          intro p hp
          rw [hext]
          apply List.mem_append_left
          rw [hp]
          simp [pushOptRun]
        · -- member appended, bucket still open
          rw [heq] at hst'
          subst hst'
          simp only [RunsClaim] at IH
          have hrest := IH.2 trivial
          apply RunsClaim_of_nonbf hq h1 hrest
          intro p hp
          rw [hext]
          apply List.mem_append_left
          rw [hp]
          simp [pushOptRun]
        · -- member deferred to the back of the queue
          rw [heq] at hst'
          subst hst'
          simp only [RunsClaim] at IH
          have hrest : ∀ r ∈ runsOf rest, some (sealRun r) ∈ out := by
            intro r hr
            apply IH.2 trivial
            rw [runsOf_append_neg h1]
            exact hr
          apply RunsClaim_of_nonbf hq h1 hrest
          intro p hp
          rw [hext]
          apply List.mem_append_left
          rw [hp]
          simp [pushOptRun]

theorem buildBuckets_runs {fields : List Field} {bl : List (Option Bucket)}
    (h : buildBuckets fields = some bl) :
    ∀ r ∈ runsOf fields, some (sealRun r) ∈ bl :=
  (buildGo_runs _ _ _ h).2 rfl

/-! ### The flatten stage -/

theorem flattenGo_some (sp : Nat → Nat → List Nat × Nat) (hsp : IsShuffle sp) :
    ∀ (bl : List (Option Bucket)) (g : Nat), (∀ b ∈ bl, b.isSome) →
    ∃ out, flattenGo sp g bl = some out ∧ out.Perm (flatOB bl) := by
  intro bl
  induction bl with
  | nil => exact fun g _ => ⟨[], rfl, by simp [flatOB]⟩
  | cons ob rest ih =>
    intro g hall
    match ob with
    | none => exact absurd (hall none (by simp)) (by simp)
    | some b =>
      have hrest : ∀ b' ∈ rest, b'.isSome := fun b' hb' => hall b' (by simp [hb'])
      have hflat : flatOB (some b :: rest) = b.fields ++ flatOB rest := by
        simp [flatOB, obFields]
      by_cases hr : b.isRun
      · obtain ⟨t, ht, hp⟩ := ih g hrest
        refine ⟨b.fields ++ t, ?_, ?_⟩
        · rw [flattenGo, if_pos hr, ht]
          rfl
        · rw [hflat]
          exact List.Perm.append_left b.fields hp
      · obtain ⟨t, ht, hp⟩ := ih (sp g b.fields.length).2 hrest
        refine ⟨applyPerm (sp g b.fields.length).1 b.fields ++ t, ?_, ?_⟩
        · rw [flattenGo, if_neg hr, ht]
          rfl
        · rw [hflat]
          exact List.Perm.append (applyPerm_perm (hsp g b.fields.length)) hp

theorem flattenGo_subseg (sp : Nat → Nat → List Nat × Nat) :
    ∀ (bl : List (Option Bucket)) (g : Nat) (out : List Field) (b : Bucket),
    flattenGo sp g bl = some out → some b ∈ bl → b.isRun = true →
    isSubseg b.fields out := by
  intro bl
  induction bl with
  | nil => intro g out b _ hb; exact absurd hb (List.not_mem_nil _)
  | cons ob rest ih =>
    intro g out b hout hb hrun
    match ob with
    | none => rw [flattenGo] at hout; exact absurd hout (by simp)
    | some b0 =>
      rcases List.mem_cons.1 hb with hb | hb
      · injection hb with hbb
        subst hbb
        rw [flattenGo, if_pos hrun] at hout
        obtain ⟨t, ht, hteq⟩ := Option.map_eq_some'.1 hout
        exact ⟨[], t, by rw [← hteq]; simp⟩
      · by_cases hr : b0.isRun
        · rw [flattenGo, if_pos hr] at hout
          obtain ⟨t, ht, hteq⟩ := Option.map_eq_some'.1 hout
          obtain ⟨u, v, huv⟩ := ih g t b ht hb hrun
          exact ⟨b0.fields ++ u, v, by rw [← hteq, huv]; simp [List.append_assoc]⟩
        · rw [flattenGo, if_neg hr] at hout
          obtain ⟨t, ht, hteq⟩ := Option.map_eq_some'.1 hout
          obtain ⟨u, v, huv⟩ := ih _ t b ht hb hrun
          exact ⟨applyPerm (sp g b0.fields.length).1 b0.fields ++ u, v,
            by rw [← hteq, huv]; simp [List.append_assoc]⟩

/-! ### Composition: properties of `randomize` -/

theorem randomize_some_perm {sp : Nat → Nat → List Nat × Nat} (hsp : IsShuffle sp)
    (fields : List Field) :
    ∃ out, randomize sp fields = some out ∧ out.Perm fields := by
  obtain ⟨bl, hbl⟩ := Option.isSome_iff_exists.1 (buildBuckets_isSome fields)
  have hall : ∀ b ∈ bl, b.isSome := buildBuckets_allSome hbl
  have hall' : ∀ b ∈ applyPerm (sp mt19937Seed bl.length).1 bl, b.isSome := by
    intro b hb
    exact hall b ((applyPerm_perm (hsp mt19937Seed bl.length)).mem_iff.1 hb)
  obtain ⟨out, hout, hp⟩ := flattenGo_some sp hsp _ (sp mt19937Seed bl.length).2 hall'
  refine ⟨out, ?_, ?_⟩
  · rw [randomize, hbl]
    exact hout
  · have h1 : (flatOB (applyPerm (sp mt19937Seed bl.length).1 bl)).Perm (flatOB bl) :=
      List.Perm.flatMap_right obFields (applyPerm_perm (hsp mt19937Seed bl.length))
    have h2 : (↑(flatOB bl) : Multiset Field) = ↑fields := by
      rw [buildGo_content _ _ _ hbl]
      simp only [stContent, orFields_none, obFields_none, Multiset.coe_nil]
      have : flatOB ([] : List (Option Bucket)) = [] := rfl
      rw [this, Multiset.coe_nil]
      simp
    exact hp.trans (h1.trans (Multiset.coe_eq_coe.1 h2))

theorem randomize_subseg {sp : Nat → Nat → List Nat × Nat} (hsp : IsShuffle sp)
    {fields r out : List Field} (hr : r ∈ runsOf fields)
    (hout : randomize sp fields = some out) : isSubseg r out := by
  cases hbl : buildBuckets fields with
  | none => rw [randomize, hbl] at hout; exact absurd hout (by simp)
  | some bl =>
    rw [randomize, hbl] at hout
    have hmem : some (sealRun r) ∈ bl := buildBuckets_runs hbl r hr
    have hmem' : some (sealRun r) ∈ applyPerm (sp mt19937Seed bl.length).1 bl :=
      (applyPerm_perm (hsp mt19937Seed bl.length)).mem_iff.2 hmem
    have hsub := flattenGo_subseg sp _ _ out (sealRun r) hout hmem' rfl
    simpa [sealRun] using hsub

theorem randomize_mem {sp : Nat → Nat → List Nat × Nat} (hsp : IsShuffle sp)
    {fields out : List Field} (hout : randomize sp fields = some out) :
    ∀ f ∈ fields, f ∈ out := by
  obtain ⟨out', hout', hp⟩ := randomize_some_perm hsp fields
  rw [hout] at hout'
  injection hout' with he
  subst he
  intro f hf
  exact hp.mem_iff.2 hf

/-! ### The partition performed by randomizeStructureLayout -/

theorem partGo_fields_no_incomplete : ∀ (ds os : List Decl) (fs : List Field)
    (v : Option Field), (∀ g ∈ fs, g.isIncompleteArray = false) →
    ∀ g ∈ (partGo ds os fs v).2.1, g.isIncompleteArray = false := by
  intro ds
  induction ds with
  | nil => intro os fs v hfs; exact hfs
  | cons d rest ih =>
    intro os fs v hfs
    match d with
    | Decl.otherD n =>
      rw [partGo]
      exact ih _ _ _ hfs
    | Decl.fieldD f =>
      rw [partGo]
      by_cases hinc : f.isIncompleteArray
      · rw [if_pos hinc]
        exact ih _ _ _ hfs
      · rw [if_neg hinc]
        apply ih
        intro g hg
        rcases List.mem_append.1 hg with hg | hg
        · exact hfs g hg
        · simp at hg
          subst hg
          simpa using hinc

theorem partGo_others_shape : ∀ (ds os : List Decl) (fs : List Field) (v : Option Field),
    (∀ d ∈ os, ∃ n, d = Decl.otherD n) →
    ∀ d ∈ (partGo ds os fs v).1, ∃ n, d = Decl.otherD n := by
  intro ds
  induction ds with
  | nil => intro os fs v hos; exact hos
  | cons d rest ih =>
    intro os fs v hos
    match d with
    | Decl.fieldD f =>
      rw [partGo]
      by_cases hinc : f.isIncompleteArray
      · rw [if_pos hinc]; exact ih _ _ _ hos
      · rw [if_neg hinc]; exact ih _ _ _ hos
    | Decl.otherD n =>
      rw [partGo]
      apply ih
      intro d hd
      rcases List.mem_append.1 hd with hd | hd
      · exact hos d hd
      · simp at hd
        subst hd
        exact ⟨n, rfl⟩

theorem getLast?_cons_isSome (a : α) (t : List α) : ∃ x, (a :: t).getLast? = some x := by
  induction t generalizing a with
  | nil => exact ⟨a, rfl⟩
  | cons b t' ih =>
    obtain ⟨x, hx⟩ := ih b
    exact ⟨x, by rw [List.getLast?_cons_cons]; exact hx⟩

theorem incompleteSeq_cons_field_pos {f : Field} (hinc : f.isIncompleteArray = true)
    (rest : List Decl) : incompleteSeq (Decl.fieldD f :: rest) = f :: incompleteSeq rest := by
  simp [incompleteSeq, List.filterMap_cons, hinc]

theorem incompleteSeq_cons_field_neg {f : Field} (hinc : f.isIncompleteArray = false)
    (rest : List Decl) : incompleteSeq (Decl.fieldD f :: rest) = incompleteSeq rest := by
  simp [incompleteSeq, List.filterMap_cons, hinc]

theorem incompleteSeq_cons_other (n : Nat) (rest : List Decl) :
    incompleteSeq (Decl.otherD n :: rest) = incompleteSeq rest := by
  simp [incompleteSeq, List.filterMap_cons]

theorem partGo_vla_eq : ∀ (ds os : List Decl) (fs : List Field) (v : Option Field),
    (partGo ds os fs v).2.2 =
      match (incompleteSeq ds).getLast? with
      | some f => some f
      | none => v := by
  intro ds
  induction ds with
  | nil => intro os fs v; rfl
  | cons d rest ih =>
    intro os fs v
    match d with
    | Decl.otherD n =>
      rw [partGo, incompleteSeq_cons_other, ih]
    | Decl.fieldD f =>
      by_cases hinc : f.isIncompleteArray
      · rw [partGo, if_pos hinc, incompleteSeq_cons_field_pos hinc, ih]
        cases hl : incompleteSeq rest with
        | nil => rfl
        | cons a t =>
          obtain ⟨x, hx⟩ := getLast?_cons_isSome a t
          rw [List.getLast?_cons_cons, hx]
      · rw [partGo, if_neg hinc, incompleteSeq_cons_field_neg (by simpa using hinc), ih]

theorem memberSeq_cons_field (f : Field) (rest : List Decl) :
    memberSeq (Decl.fieldD f :: rest) = f :: memberSeq rest := by
  simp [memberSeq, List.filterMap_cons]

theorem memberSeq_cons_other (n : Nat) (rest : List Decl) :
    memberSeq (Decl.otherD n :: rest) = memberSeq rest := by
  simp [memberSeq, List.filterMap_cons]

theorem incompleteSeq_eq_filter (ds : List Decl) :
    incompleteSeq ds = (memberSeq ds).filter (fun g => g.isIncompleteArray) := by
  induction ds with
  | nil => rfl
  | cons d rest ih =>
    match d with
    | Decl.otherD n =>
      rw [incompleteSeq_cons_other, memberSeq_cons_other]
      exact ih
    | Decl.fieldD f =>
      by_cases hinc : f.isIncompleteArray
      · rw [incompleteSeq_cons_field_pos hinc, memberSeq_cons_field]
        simp only [List.filter_cons, hinc, if_true]
        rw [ih]
      · rw [incompleteSeq_cons_field_neg (by simpa using hinc), memberSeq_cons_field]
        simp only [List.filter_cons]
        rw [show f.isIncompleteArray = false from by simpa using hinc]
        simp only [Bool.false_eq_true, if_false]
        exact ih

theorem memberSeq_last_incomplete {ds : List Decl} {f : Field}
    (hlast : (memberSeq ds).getLast? = some f) (hinc : f.isIncompleteArray = true) :
    (incompleteSeq ds).getLast? = some f := by
  obtain ⟨l', hl⟩ := exists_append_of_getLast? hlast
  rw [incompleteSeq_eq_filter, hl, List.filter_append]
  simp only [List.filter_cons, hinc, if_true, List.filter_nil]
  exact List.getLast?_concat _

theorem mem_incompleteSeq {ds : List Decl} {g : Field}
    (hmem : Decl.fieldD g ∈ ds) (hinc : g.isIncompleteArray = true) :
    g ∈ incompleteSeq ds :=
  List.mem_filterMap.2 ⟨Decl.fieldD g, hmem, by simp [hinc]⟩

theorem rsl_some {sp : Nat → Nat → List Nat × Nat} {ds out : List Decl}
    (hout : randomizeStructureLayout sp ds = some out) :
    ∃ fs, randomize sp (partitionDecls ds).2.1 = some fs ∧
      out = (partitionDecls ds).1 ++ fs.map Decl.fieldD ++
        (match (partitionDecls ds).2.2 with
         | some v => [Decl.fieldD v]
         | none => []) := by
  cases hr : randomize sp (partitionDecls ds).2.1 with
  | none => rw [randomizeStructureLayout, hr] at hout; exact absurd hout (by simp)
  | some fs =>
    rw [randomizeStructureLayout, hr] at hout
    injection hout with h'
    exact ⟨fs, rfl, h'.symm⟩

theorem idShuffle_isShuffle : IsShuffle idShuffle := fun _ _ => List.Perm.refl _

/-! ### The claims -/

/-- C1: for every input list of data members, the member sequence returned
by `Randstruct::randomize` is a permutation of the input: the multiset of
member handles in the output equals the multiset of the input exactly,
with no member dropped and no member duplicated. -/
theorem claim_C1 (sp : Nat → Nat → List Nat × Nat) (hsp : IsShuffle sp)
    (fields out : List Field) (hout : randomize sp fields = some out) :
    (↑out : Multiset Field) = ↑fields := by
  obtain ⟨out', hout', hp⟩ := randomize_some_perm hsp fields
  rw [hout] at hout'
  injection hout' with he
  subst he
  exact Multiset.coe_eq_coe.2 hp

/-- C1 witness: the theorem applied to the concrete input `[aF, xF, yF, bF]`,
whose computed output is `[xF, yF, aF, bF]`. -/
theorem claim_C1_wit :
    (↑[xF, yF, aF, bF] : Multiset Field) = ↑[aF, xF, yF, bF] :=
  claim_C1 idShuffle idShuffle_isShuffle [aF, xF, yF, bF] [xF, yF, aF, bF] rfl

/-- C2: for every input containing a maximal run of R ≥ 2 consecutive
non-zero-width bitfield members, the output of the randomization contains
those same R members contiguously and in their original relative order;
the position of the run as a block among the other members may differ (a
`BitfieldRun` bucket is never internally shuffled by `flattenGo`). -/
theorem claim_C2 (sp : Nat → Nat → List Nat × Nat) (hsp : IsShuffle sp)
    (fields r out : List Field) (hr : r ∈ runsOf fields) (_hlen : 2 ≤ r.length)
    (hout : randomize sp fields = some out) : isSubseg r out :=
  randomize_subseg hsp hr hout

/-- C2 witness: the run `[xF, yF]` of `[aF, xF, yF, bF]` is contiguous and
in order inside the computed output `[xF, yF, aF, bF]`. -/
theorem claim_C2_wit :
    ([xF, yF] ∈ runsOf [aF, xF, yF, bF] ∧ 2 ≤ ([xF, yF] : List Field).length) ∧
      isSubseg [xF, yF] [xF, yF, aF, bF] :=
  ⟨⟨by decide, by decide⟩,
    claim_C2 idShuffle idShuffle_isShuffle [aF, xF, yF, bF] [xF, yF] [xF, yF, aF, bF]
      (by decide) (by decide) rfl⟩

/-- C3: for every declaration list whose last member is a flexible/incomplete
array member, the output of `randomizeStructureLayout` has that member as
its last member, for every shuffle source, and the flexible-array member is
never included in the field set passed to the bucket builder and shuffler. -/
theorem claim_C3 (sp : Nat → Nat → List Nat × Nat) (ds : List Decl) (f : Field)
    (out : List Decl) (hlast : (memberSeq ds).getLast? = some f)
    (hinc : f.isIncompleteArray = true)
    (hout : randomizeStructureLayout sp ds = some out) :
    out.getLast? = some (Decl.fieldD f) ∧ f ∉ (partitionDecls ds).2.1 := by
  have hvla : (partitionDecls ds).2.2 = some f := by
    have h1 := memberSeq_last_incomplete hlast hinc
    rw [partitionDecls, partGo_vla_eq, h1]
  obtain ⟨fs, hfs, hoeq⟩ := rsl_some hout
  constructor
  · rw [hoeq, hvla]
    exact List.getLast?_concat _
  · intro hmem
    rw [partitionDecls] at hmem
    have hno := partGo_fields_no_incomplete ds [] [] none
      (fun g hg => absurd hg (List.not_mem_nil g)) f hmem
    rw [hinc] at hno
    exact absurd hno (by simp)

/-- C3 witness: the theorem applied to a declaration list ending in the
incomplete-array member `v1F`. -/
theorem claim_C3_wit :
    ((memberSeq [Decl.otherD 0, Decl.fieldD aF, Decl.fieldD bF, Decl.fieldD v1F]).getLast? =
        some v1F ∧ v1F.isIncompleteArray = true) ∧
      ([Decl.otherD 0, Decl.fieldD aF, Decl.fieldD bF, Decl.fieldD v1F] :
          List Decl).getLast? = some (Decl.fieldD v1F) ∧
        v1F ∉ (partitionDecls [Decl.otherD 0, Decl.fieldD aF, Decl.fieldD bF,
          Decl.fieldD v1F]).2.1 :=
  ⟨⟨by decide, by decide⟩,
    claim_C3 idShuffle [Decl.otherD 0, Decl.fieldD aF, Decl.fieldD bF, Decl.fieldD v1F]
      v1F [Decl.otherD 0, Decl.fieldD aF, Decl.fieldD bF, Decl.fieldD v1F]
      (by decide) (by decide) rfl⟩

/-- C4: `shouldRandomize` returns false for a union unconditionally, returns
false when both attributes are present, and otherwise returns
`hasRandomizeAttr && !hasNoRandomizeAttr`. -/
theorem claim_C4 : ∀ u r n : Bool,
    shouldRandomize true r n = false ∧
    shouldRandomize u true true = false ∧
    shouldRandomize false r n = (r && !n) := by decide

/-- C5 counterexample: the randomness source is a default-constructed
`std::mt19937` starting from the fixed default seed; two invocations on the
same input produce the identical output, contradicting the claim that the
default behaviour draws fresh entropy per invocation. -/
theorem claim_C5_cex :
    randomizeTwice idShuffle [aF, xF, yF, bF] =
      (some [xF, yF, aF, bF], some [xF, yF, aF, bF]) := rfl

/-- C5 amended: `Randstruct::randomize` takes no seed parameter and its
generator state always starts from the fixed mt19937 default seed, so the
randomization is deterministic: two invocations on the same input always
produce the same output order. -/
theorem claim_C5 (sp : Nat → Nat → List Nat × Nat) (fields : List Field) :
    (randomizeTwice sp fields).1 = (randomizeTwice sp fields).2 := rfl

/-- C6 counterexample: the zero-width bitfield `zF` is placed into a general
bucket by the bucket builder and is re-emitted in the output member
sequence, contradicting the claim that it is never placed into any bucket
and not re-emitted. -/
theorem claim_C6_cex :
    zF.isBitfield = true ∧ zF.isZeroWidth = true ∧
    buildBuckets [zF] = some [some ⟨[zF], 32, false⟩] ∧
    randomize idShuffle [zF] = some [zF] :=
  ⟨rfl, rfl, rfl, rfl⟩

/-- C6 amended: a zero-width bitfield terminates the current bitfield run
and is never placed into a bitfield-run bucket, but it is then handled as a
regular member: placed into a general (or oversized) bucket and re-emitted
in the output member sequence. -/
theorem claim_C6 (sp : Nat → Nat → List Nat × Nat) (hsp : IsShuffle sp)
    (fields out : List Field) (z : Field) (hz : z ∈ fields)
    (hzw : z.isZeroWidth = true) (hout : randomize sp fields = some out) :
    z ∈ out ∧ ∀ bl b, buildBuckets fields = some bl → some b ∈ bl →
      b.isRun = true → z ∉ b.fields := by
  refine ⟨randomize_mem hsp hout z hz, ?_⟩
  intro bl b hbl hb hrun hmem
  have hrok := (buildBuckets_inv_buckets hbl (some b) hb).1 b rfl hrun z hmem
  rw [runP, hzw] at hrok
  simp at hrok

/-- C6 amended witness: on `[xF, yF, zF, wF]` the zero-width bitfield `zF`
is re-emitted in the output and is absent from the run bucket `[xF, yF]`. -/
theorem claim_C6_wit :
    (zF ∈ ([xF, yF, zF, wF] : List Field) ∧ zF.isZeroWidth = true) ∧
      zF ∈ ([xF, yF, zF, wF] : List Field) ∧
        zF ∉ (⟨[xF, yF], 2, true⟩ : Bucket).fields :=
  ⟨⟨by decide, rfl⟩,
    (claim_C6 idShuffle idShuffle_isShuffle [xF, yF, zF, wF] [xF, yF, zF, wF] zF
        (by decide) rfl rfl).1,
    (claim_C6 idShuffle idShuffle_isShuffle [xF, yF, zF, wF] [xF, yF, zF, wF] zF
        (by decide) rfl rfl).2
      [some ⟨[xF, yF], 2, true⟩, some ⟨[zF], 32, false⟩, some ⟨[wF], 1, true⟩]
      ⟨[xF, yF], 2, true⟩ rfl (by decide) rfl⟩

/-- C7 counterexample: starting from the input `[a7, b7, c7]` (widths 40,
40, 10), after `b7` is deferred the member `c7` is successfully appended to
the current general bucket (`[a7]` becomes `[a7, c7]`, occupied size 50 of
64), yet the skipped counter stays at 1 instead of being cleared to 0. -/
theorem claim_C7_cex :
    buildStep ⟨[a7, b7, c7], 0, none, none, []⟩ =
      .cont ⟨[b7, c7], 0, some ⟨[a7], 40, false⟩, none, []⟩ ∧
    buildStep ⟨[b7, c7], 0, some ⟨[a7], 40, false⟩, none, []⟩ =
      .cont ⟨[c7, b7], 1, some ⟨[a7], 40, false⟩, none, []⟩ ∧
    buildStep ⟨[c7, b7], 1, some ⟨[a7], 40, false⟩, none, []⟩ =
      .cont ⟨[b7], 1, some ⟨[a7, c7], 50, false⟩, none, []⟩ ∧
    (1 : Nat) ≠ 0 :=
  ⟨rfl, rfl, rfl, by decide⟩

/-- C7 amended: on a successful append the skipped counter is cleared to 0
only when the append makes the bucket full (occupied size reaches the
capacity); an append that leaves the bucket under capacity leaves the
skipped counter unchanged. -/
theorem claim_C7 (f : Field) (rest : List Field) (s : Nat) (cur : Option Bucket)
    (brun : Option (List Field)) (bks : List (Option Bucket))
    (h1 : runP f = false) (h2 : f.width < CACHE_LINE)
    (h3 : (cur.getD ⟨[], 0, false⟩).size + f.width ≤ CACHE_LINE) :
    (CACHE_LINE ≤ (cur.getD ⟨[], 0, false⟩).size + f.width →
      (stepBody f rest s cur brun bks).s = 0) ∧
    ((cur.getD ⟨[], 0, false⟩).size + f.width < CACHE_LINE →
      (stepBody f rest s cur brun bks).s = s) := by
  rcases stepBody_cases f rest s cur brun bks with
      ⟨g1, heq⟩ | ⟨g1, g2, heq⟩ | ⟨g1, g2, g3, g4, heq⟩ | ⟨g1, g2, g3, g4, heq⟩ |
      ⟨g1, g2, g3, heq⟩
  · rw [g1] at h1; exact absurd h1 (by simp)
  · omega
  · rw [heq]
    exact ⟨fun _ => rfl, fun hlt => by omega⟩
  · rw [heq]
    exact ⟨fun hge => by omega, fun _ => rfl⟩
  · omega

/-- C7 amended witness: appending `c7` to the half-full bucket `[a7]` with
skipped counter 1 leaves it at 1. -/
theorem claim_C7_wit :
    (runP c7 = false ∧ c7.width < CACHE_LINE ∧
      ((some (⟨[a7], 40, false⟩ : Bucket)).getD ⟨[], 0, false⟩).size + c7.width ≤ CACHE_LINE) ∧
      (stepBody c7 [b7] 1 (some ⟨[a7], 40, false⟩) none []).s = 1 :=
  ⟨⟨rfl, by decide, by decide⟩,
    (claim_C7 c7 [b7] 1 (some ⟨[a7], 40, false⟩) none [] rfl (by decide) (by decide)).2
      (by decide)⟩

/-- C8 counterexample: two adjacent non-zero-width bitfields of a 64-bit
type each have declared width equal to the bucket capacity, yet the bucket
builder places them together in one bitfield-run bucket, so a member of
width ≥ capacity is not always sealed alone. -/
theorem claim_C8_cex :
    CACHE_LINE ≤ A8.width ∧ CACHE_LINE ≤ B8.width ∧
    buildBuckets [A8, B8] = some [some ⟨[A8, B8], 2, true⟩] ∧
    ([A8, B8] : List Field) ≠ [A8] ∧ ([A8, B8] : List Field) ≠ [B8] :=
  ⟨by decide, by decide, rfl, by decide, by decide⟩

/-- C8 amended: every member that reaches the general-bucket path (it is not
a non-zero-width bitfield) and whose width is at least the bucket capacity
is sealed alone: in the final bucket sequence its bucket contains exactly
that member. -/
theorem claim_C8 (fields : List Field) (bl : List (Option Bucket)) (b : Bucket)
    (f : Field) (hbl : buildBuckets fields = some bl) (hb : some b ∈ bl)
    (hf : f ∈ b.fields) (hnp : runP f = false) (hbig : CACHE_LINE ≤ f.width) :
    b.fields = [f] :=
  (buildBuckets_inv_buckets hbl (some b) hb).2 b rfl f hf hnp hbig

/-- C8 amended witness: the 80-bit field `big8` of `[aF, big8, bF]` is
sealed alone in its oversized bucket. -/
theorem claim_C8_wit :
    (runP big8 = false ∧ CACHE_LINE ≤ big8.width) ∧
      (⟨[big8], 80, false⟩ : Bucket).fields = [big8] :=
  ⟨⟨rfl, by decide⟩,
    claim_C8 [aF, big8, bF]
      [some ⟨[big8], 80, false⟩, some ⟨[aF, bF], 64, false⟩]
      ⟨[big8], 80, false⟩ big8 rfl (by decide) (by decide) rfl (by decide)⟩

/-- C9: the randomization is total: for any finite member list a full
output sequence is always produced, with no failure path; moreover when the
skipped count reaches the number of members still unplaced, the step
force-closes the current general bucket (appending it to the bucket list as
is) and the skipped counter ends the iteration at 0. -/
theorem claim_C9 :
    (∀ (sp : Nat → Nat → List Nat × Nat) (fields : List Field), IsShuffle sp →
      ∃ out, randomize sp fields = some out ∧ out.length = fields.length) ∧
    (∀ (st : BState) (f : Field) (rest : List Field), st.q = f :: rest →
      st.q.length ≤ st.s →
      ∃ st', buildStep st = .cont st' ∧ st'.s = 0 ∧
        ∃ ext, st'.bks = st.bks ++ [st.cur] ++ ext) := by
  constructor
  · intro sp fields hsp
    obtain ⟨out, hout, hp⟩ := randomize_some_perm hsp fields
    exact ⟨out, hout, hp.length_eq⟩
  · intro st f rest hq hs
    rw [buildStep_cons hq]
    rw [if_pos (by rw [hq] at hs; simpa using hs)]
    refine ⟨_, rfl, ?_, ?_⟩
    · rcases stepBody_cases f rest 0 none st.brun (st.bks ++ [st.cur]) with
          ⟨g1, heq⟩ | ⟨g1, g2, heq⟩ | ⟨g1, g2, g3, g4, heq⟩ | ⟨g1, g2, g3, g4, heq⟩ |
          ⟨g1, g2, g3, heq⟩
      · rw [heq]
      · rw [heq]
      · rw [heq]
      · rw [heq]
      · exfalso
        have hz : ((none : Option Bucket).getD ⟨[], 0, false⟩).size = 0 := rfl
        rw [hz] at g3
        simp only [CACHE_LINE] at g2 g3
        omega
    · exact stepBody_bks_ext f rest 0 none st.brun (st.bks ++ [st.cur])

/-- C9 witness: totality on `[aF, bF, cF]`, and the force-close transition
fired from a reachable state with one unplaced member and skipped count 1. -/
theorem claim_C9_wit :
    (∃ out, randomize idShuffle [aF, bF, cF] = some out ∧
      out.length = ([aF, bF, cF] : List Field).length) ∧
    (∃ st', buildStep ⟨[b7], 1, some ⟨[a7, c7], 50, false⟩, none, []⟩ = .cont st' ∧
      st'.s = 0 ∧ ∃ ext, st'.bks = [] ++ [some ⟨[a7, c7], 50, false⟩] ++ ext) :=
  ⟨claim_C9.1 idShuffle [aF, bF, cF] idShuffle_isShuffle,
    claim_C9.2 ⟨[b7], 1, some ⟨[a7, c7], 50, false⟩, none, []⟩ b7 [] rfl (by decide)⟩

/-- C10: in `randomizeStructureLayout` every incomplete-array field is
excluded from the shuffled field set; the last incomplete-array field in
declaration order is appended as the final member of the output; an
incomplete-array field occurs in the output only if it is that last one;
and when two distinct incomplete-array fields are declared the output is
not a permutation of the input. -/
theorem claim_C10 (sp : Nat → Nat → List Nat × Nat) (hsp : IsShuffle sp)
    (ds out : List Decl) (hout : randomizeStructureLayout sp ds = some out) :
    (∀ g ∈ (partitionDecls ds).2.1, g.isIncompleteArray = false) ∧
    (∀ f, (incompleteSeq ds).getLast? = some f →
      out.getLast? = some (Decl.fieldD f)) ∧
    (∀ g, g.isIncompleteArray = true → Decl.fieldD g ∈ out →
      (incompleteSeq ds).getLast? = some g) ∧
    (∀ g h', Decl.fieldD g ∈ ds → Decl.fieldD h' ∈ ds → g ≠ h' →
      g.isIncompleteArray = true → h'.isIncompleteArray = true →
      ¬ List.Perm out ds) := by
  obtain ⟨fs, hfs, hoeq⟩ := rsl_some hout
  have hnoinc : ∀ g ∈ (partitionDecls ds).2.1, g.isIncompleteArray = false := by
    intro g hg
    rw [partitionDecls] at hg
    exact partGo_fields_no_incomplete ds [] [] none
      (fun g' hg' => absurd hg' (List.not_mem_nil g')) g hg
  have hmemout : ∀ g, g.isIncompleteArray = true → Decl.fieldD g ∈ out →
      (incompleteSeq ds).getLast? = some g := by
    intro g hginc hgmem
    rw [hoeq] at hgmem
    rcases List.mem_append.1 hgmem with hgmem | hgmem
    · rcases List.mem_append.1 hgmem with hgmem | hgmem
      · obtain ⟨n, hn⟩ := partGo_others_shape ds [] [] none
          (fun d hd => absurd hd (List.not_mem_nil d)) _ hgmem
        exact absurd hn (by simp)
      · obtain ⟨g', hg', hgg⟩ := List.mem_map.1 hgmem
        injection hgg with hgg
        obtain ⟨fs', hfs', hpfs⟩ := randomize_some_perm hsp (partitionDecls ds).2.1
        rw [hfs] at hfs'
        injection hfs' with hfse
        subst hfse
        have hone : g' ∈ (partitionDecls ds).2.1 := hpfs.mem_iff.1 hg'
        rw [hgg] at hone
        rw [hnoinc g hone] at hginc
        exact absurd hginc (by simp)
    · cases hvla : (partitionDecls ds).2.2 with
      | none => rw [hvla] at hgmem; exact absurd hgmem (List.not_mem_nil _)
      | some v =>
        rw [hvla] at hgmem
        simp at hgmem
        subst hgmem
        rw [partitionDecls, partGo_vla_eq] at hvla
        cases hl : (incompleteSeq ds).getLast? with
        | none =>
          rw [hl] at hvla
          have h2 : (none : Option Field) = some g := hvla
          exact absurd h2 (by simp)
        | some x =>
          rw [hl] at hvla
          have h2 : some x = some g := hvla
          exact h2
  refine ⟨hnoinc, ?_, hmemout, ?_⟩
  · intro f hlast
    have hvla : (partitionDecls ds).2.2 = some f := by
      rw [partitionDecls, partGo_vla_eq, hlast]
    rw [hoeq, hvla]
    exact List.getLast?_concat _
  · intro g h' hgmem hhmem hne hginc hhinc
    intro hperm
    have hgseq : g ∈ incompleteSeq ds := mem_incompleteSeq hgmem hginc
    have hhseq : h' ∈ incompleteSeq ds := mem_incompleteSeq hhmem hhinc
    obtain ⟨x, hx⟩ : ∃ x, (incompleteSeq ds).getLast? = some x := by
      cases hl : incompleteSeq ds with
      | nil => rw [hl] at hgseq; exact absurd hgseq (List.not_mem_nil g)
      | cons a t => exact getLast?_cons_isSome a t
    have hkey : ∀ y, Decl.fieldD y ∈ ds → y.isIncompleteArray = true → y ≠ x →
        False := by
      intro y hymem hyinc hyx
      have : Decl.fieldD y ∈ out := hperm.mem_iff.2 hymem
      have := hmemout y hyinc this
      rw [hx] at this
      injection this with hthis
      exact hyx hthis.symm
    by_cases hgx : g = x
    · exact hkey h' hhmem hhinc (fun he => hne (hgx.trans he.symm))
    · exact hkey g hgmem hginc hgx

/-- C10 witness: on `[fieldD v1F, fieldD aF, fieldD v2F]` with two distinct
incomplete-array fields, the computed output `[fieldD aF, fieldD v2F]` ends
with `v2F`, drops `v1F`, and is not a permutation of the input. -/
theorem claim_C10_wit :
    (∀ g ∈ (partitionDecls [Decl.fieldD v1F, Decl.fieldD aF, Decl.fieldD v2F]).2.1,
      g.isIncompleteArray = false) ∧
    ([Decl.fieldD aF, Decl.fieldD v2F] : List Decl).getLast? = some (Decl.fieldD v2F) ∧
    ¬ List.Perm ([Decl.fieldD aF, Decl.fieldD v2F] : List Decl)
      [Decl.fieldD v1F, Decl.fieldD aF, Decl.fieldD v2F] :=
  ⟨(claim_C10 idShuffle idShuffle_isShuffle
      [Decl.fieldD v1F, Decl.fieldD aF, Decl.fieldD v2F]
      [Decl.fieldD aF, Decl.fieldD v2F] rfl).1,
    (claim_C10 idShuffle idShuffle_isShuffle
      [Decl.fieldD v1F, Decl.fieldD aF, Decl.fieldD v2F]
      [Decl.fieldD aF, Decl.fieldD v2F] rfl).2.1 v2F (by decide),
    (claim_C10 idShuffle idShuffle_isShuffle
      [Decl.fieldD v1F, Decl.fieldD aF, Decl.fieldD v2F]
      [Decl.fieldD aF, Decl.fieldD v2F] rfl).2.2.2 v1F v2F (by decide) (by decide)
      (by decide) (by decide) (by decide)⟩

end Randstruct
